import Mathlib

/-
Verification of the streaming chat decoder (callChatAPI, src/lib/utils.ts)
and the data-fetching wrappers (src/lib/api.ts) of the dashboard repository.

Text is modelled as a list of characters.  JavaScript strings become
`Str := List Char`; `JSON.parse` is modelled by an executable fueled
recursive-descent parser `jsonParse` producing a `JsValue`; JS truthiness
is `truthy`.  The decode loop of callChatAPI is modelled chunk by chunk:
`stepChunk` is one iteration of the read loop (append to the carry buffer,
split on newline, keep the trailing partial line, process the complete
lines with an early break on a terminal marker), `flushTail` is the final
carry-buffer block, and `runStream` is the whole streaming path.
`jsonPath` is the non-streaming content-type path.  Checked exceptions:
the try/catch around the per-line JSON handling catches every throw inside
it (JSON.parse failures, property access on null, .replace on a
non-string), so line processing is total; on the non-streaming path the
same throws escape to the outer catch and abort the whole call, modelled
by `Except Unit`.
-/

abbrev Str := List Char

def chars (s : String) : Str := s.data

/-- JS whitespace as far as `trim` is concerned (only emptiness of the
trimmed string is ever used by the source, so we model `line.trim()`
truthiness as `!(allWs line)`). -/
def jsWs (c : Char) : Bool :=
  c = ' ' || c = '\t' || c = '\n' || c = '\r' || c = '\x0b' || c = '\x0c'

def allWs (s : Str) : Bool := s.all jsWs

/-- `s.startsWith p` of JS. -/
def startsWithL (p s : Str) : Bool := List.isPrefixOf p s

/-- `s.includes pat` of JS. -/
def hasSub (pat : Str) : Str → Bool
  | [] => startsWithL pat []
  | c :: cs => startsWithL pat (c :: cs) || hasSub pat cs

/-- `s.replace(/\\n/g, "\n")`: every two-character backslash-n sequence
becomes a literal newline, scanning left to right. -/
def normNl : Str → Str
  | [] => []
  | [c] => [c]
  | c :: c2 :: cs =>
    if c = '\\' ∧ c2 = 'n' then '\n' :: normNl cs
    else c :: normNl (c2 :: cs)

/-- `buffer.split("\n")` with the last element separated off: returns the
complete lines and the trailing partial line (the new carry buffer). -/
def splitNl : Str → List Str × Str
  | [] => ([], [])
  | c :: cs =>
    let p := splitNl cs
    if c = '\n' then ([] :: p.1, p.2)
    else
      match p.1 with
      | [] => ([], c :: p.2)
      | l :: ls => ((c :: l) :: ls, p.2)

/-! ## JSON model (JSON.parse) -/

inductive JsValue : Type where
  | null : JsValue
  | bool : Bool → JsValue
  | num : Rat → JsValue
  | str : Str → JsValue
  | arr : List JsValue → JsValue
  | obj : List (Str × JsValue) → JsValue

def jsonWsChar (c : Char) : Bool := c = ' ' || c = '\t' || c = '\n' || c = '\r'

def skipWs (cs : Str) : Str := cs.dropWhile jsonWsChar

def hexVal (c : Char) : Option Nat :=
  if '0' ≤ c ∧ c ≤ '9' then some (c.toNat - 48)
  else if 'a' ≤ c ∧ c ≤ 'f' then some (c.toNat - 87)
  else if 'A' ≤ c ∧ c ≤ 'F' then some (c.toNat - 55)
  else none

def consFirst (c : Char) (p : Str × Str) : Str × Str := (c :: p.1, p.2)

/-- Body of a JSON string after the opening quote: returns the decoded
content and the remainder after the closing quote. -/
def parseStrBody : Str → Option (Str × Str)
  | [] => none
  | c :: r =>
    if c = '"' then some ([], r)
    else if c = '\\' then
      match r with
      | [] => none
      | e :: t =>
        if e = '"' then (parseStrBody t).map (consFirst '"')
        else if e = '\\' then (parseStrBody t).map (consFirst '\\')
        else if e = '/' then (parseStrBody t).map (consFirst '/')
        else if e = 'b' then (parseStrBody t).map (consFirst '\x08')
        else if e = 'f' then (parseStrBody t).map (consFirst '\x0c')
        else if e = 'n' then (parseStrBody t).map (consFirst '\n')
        else if e = 'r' then (parseStrBody t).map (consFirst '\r')
        else if e = 't' then (parseStrBody t).map (consFirst '\t')
        else if e = 'u' then
          match t with
          | a :: b :: c2 :: d :: t2 =>
            match hexVal a, hexVal b, hexVal c2, hexVal d with
            | some ha, some hb, some hc, some hd =>
              (parseStrBody t2).map
                (consFirst (Char.ofNat ((((ha * 16 + hb) * 16 + hc) * 16) + hd)))
            | _, _, _, _ => none
          | _ => none
        else none
    else if c.toNat < 32 then none
    else (parseStrBody r).map (consFirst c)

def decDigits (cs : Str) : Str × Str :=
  (cs.takeWhile Char.isDigit, cs.dropWhile Char.isDigit)

def digitsVal (ds : Str) : Nat := ds.foldl (fun a c => a * 10 + (c.toNat - 48)) 0

def parseFrac : Str → Option (Str × Str)
  | '.' :: t =>
    let p := decDigits t
    if p.1.isEmpty then none else some p
  | cs => some ([], cs)

def parseExp : Str → Option (Bool × Str × Str)
  | [] => some (false, [], [])
  | c :: t =>
    if c = 'e' ∨ c = 'E' then
      let s := match t with
        | '+' :: u => (false, u)
        | '-' :: u => (true, u)
        | _ => (false, t)
      let p := decDigits s.2
      if p.1.isEmpty then none else some (s.1, p.1, p.2)
    else some (false, [], c :: t)

def afterInt (neg : Bool) (ids : Str) (rest : Str) : Option (Rat × Str) := do
  let (fds, r1) ← parseFrac rest
  let (eneg, eds, r2) ← parseExp r1
  let mant : Int := (if neg then -1 else 1) * (digitsVal (ids ++ fds) : Int)
  let e10 : Int :=
    (if eneg then -(digitsVal eds : Int) else (digitsVal eds : Int)) - (fds.length : Int)
  let q : Rat :=
    if 0 ≤ e10 then ((mant * (10 : Int) ^ e10.toNat : Int) : Rat)
    else mkRat mant (10 ^ (-e10).toNat)
  some (q, r2)

/-- JSON number grammar: optional minus, `0` or a nonzero-led digit run,
optional fraction, optional exponent. -/
def parseNumber (cs : Str) : Option (Rat × Str) :=
  let s := match cs with
    | '-' :: t => (true, t)
    | _ => (false, cs)
  match s.2 with
  | [] => none
  | c :: t =>
    if c = '0' then
      match t with
      | d :: _ => if d.isDigit then none else afterInt s.1 ['0'] t
      | [] => afterInt s.1 ['0'] []
    else if c.isDigit then
      let p := decDigits (c :: t)
      afterInt s.1 p.1 p.2
    else none

def parseArrAux (pv : Str → Option (JsValue × Str)) : Nat → Str → Option (List JsValue × Str)
  | 0, _ => none
  | f + 1, cs => do
    let (v, r) ← pv cs
    match skipWs r with
    | ']' :: t => some ([v], t)
    | ',' :: t => do
      let (vs, r2) ← parseArrAux pv f t
      some (v :: vs, r2)
    | _ => none

def parseObjAux (pv : Str → Option (JsValue × Str)) : Nat → Str → Option (List (Str × JsValue) × Str)
  | 0, _ => none
  | f + 1, cs =>
    match skipWs cs with
    | '"' :: r => do
      let (k, r1) ← parseStrBody r
      match skipWs r1 with
      | ':' :: r2 => do
        let (v, r3) ← pv r2
        match skipWs r3 with
        | '\x7d' :: t => some ([(k, v)], t)
        | ',' :: t => do
          let (ms, r4) ← parseObjAux pv f t
          some ((k, v) :: ms, r4)
        | _ => none
      | _ => none
    | _ => none

def parseVal : Nat → Str → Option (JsValue × Str)
  | 0, _ => none
  | f + 1, cs =>
    match skipWs cs with
    | 'n' :: 'u' :: 'l' :: 'l' :: r => some (.null, r)
    | 't' :: 'r' :: 'u' :: 'e' :: r => some (.bool true, r)
    | 'f' :: 'a' :: 'l' :: 's' :: 'e' :: r => some (.bool false, r)
    | '"' :: r => (parseStrBody r).map (fun p => (.str p.1, p.2))
    | '[' :: r =>
      match skipWs r with
      | ']' :: t => some (.arr [], t)
      | cs2 => (parseArrAux (parseVal f) f cs2).map (fun p => (.arr p.1, p.2))
    | '\x7b' :: r =>
      match skipWs r with
      | '\x7d' :: t => some (.obj [], t)
      | cs2 => (parseObjAux (parseVal f) f cs2).map (fun p => (.obj p.1, p.2))
    | cs2 => (parseNumber cs2).map (fun p => (.num p.1, p.2))

/-- Model of `JSON.parse`: `none` means the parse throws. -/
def jsonParse (cs : Str) : Option JsValue :=
  match parseVal (cs.length + 1) cs with
  | some (v, r) => if (skipWs r).isEmpty then some v else none
  | none => none

/-- JS truthiness of a parsed JSON value. -/
def truthy : JsValue → Bool
  | .null => false
  | .bool b => b
  | .num q => if q = 0 then false else true
  | .str s => !s.isEmpty
  | .arr _ => true
  | .obj _ => true

/-- Property read `v.k`: a present object field (last duplicate wins, as
in JS object construction); `none` means `undefined`.  Reading a property
of `null` throws in JS; callers model that case separately. -/
def getField (v : JsValue) (k : Str) : Option JsValue :=
  match v with
  | .obj fs => fs.foldl (fun acc p => if p.1 = k then some p.2 else acc) none
  | _ => none

/-- JS `a || b` where `a` is a possibly-undefined property read. -/
def jsOr (a : Option JsValue) (b : JsValue) : JsValue :=
  match a with
  | some v => if truthy v then v else b
  | none => b

def truthyO : Option JsValue → Bool
  | some v => truthy v
  | none => false

def isNullJ : JsValue → Bool
  | .null => true
  | _ => false

/-! ## Streaming decoder (callChatAPI, streaming path) -/

def sseData : Str := chars "data: "
def doneMark : Str := chars "[DONE]"
def evMark : Str := chars "event:"
def idMark : Str := chars "id:"
def respKey : Str := chars "response"
def msgKey : Str := chars "message"
def chkKey : Str := chars "chunk"
def cntKey : Str := chars "content"
def typeKey : Str := chars "type"
def amidKey : Str := chars "agent_message_id"
def metaTag : Str := chars "end_metadata"

/-- `data.type === "end_metadata"`: strict equality of the `type` property
with the tag string (false for absent or non-string values). -/
def isEndMeta (d : JsValue) : Bool :=
  match getField d typeKey with
  | some (.str s) => s = metaTag
  | _ => false

/-- `data.response || data.message || data.chunk || data.content || ""`. -/
def chunkVal (d : JsValue) : JsValue :=
  jsOr (getField d respKey)
    (jsOr (getField d msgKey)
      (jsOr (getField d chkKey)
        (jsOr (getField d cntKey) (JsValue.str []))))

/-- The catch branch of the per-line try/catch: emit the raw payload
(escaped newlines normalized) unless it trims to empty. -/
def fallbackEms (dc : Str) : List Str :=
  if allWs dc then [] else [normNl dc]

/-- The `try { JSON.parse ... } catch { ... }` block applied to the
payload of one `data: ` line (lines 160-184 of utils.ts, duplicated at
lines 201-221 for the final carry buffer).  Returns the sink emissions
and the new `agentMessageId`.  Any throw inside the try block lands in
the same catch: a parse failure, the `data.type` read on a `null`
payload, and `chunk.replace` on a truthy non-string all take the
fallback branch.  The `agentMessageId` assignment precedes
`chunk.replace`, so an id recorded before such a throw is kept. -/
def dataBody (id : Option JsValue) (dc : Str) : List Str × Option JsValue :=
  match jsonParse dc with
  | none => (fallbackEms dc, id)
  | some d =>
    if isNullJ d then (fallbackEms dc, id)
    else
      let id2 := if isEndMeta d && truthyO (getField d amidKey)
                 then getField d amidKey else id
      let ck := chunkVal d
      if truthy ck then
        match ck with
        | .str s => ([normNl s], id2)
        | _ => (fallbackEms dc, id2)
      else ([], id2)

inductive LineRes : Type where
  | done : LineRes
  | emit : List Str → Option JsValue → LineRes

/-- Processing of one complete line inside the `for` loop
(lines 150-193 of utils.ts): blank lines are skipped, `data: ` lines are
checked for the terminal marker and otherwise handled by `dataBody`,
`event:` and `id:` lines are consumed silently, and any other line is
emitted with escaped newlines normalized. -/
def processLine (id : Option JsValue) (line : Str) : LineRes :=
  if allWs line then .emit [] id
  else if startsWithL sseData line then
    let dc := line.drop 6
    if hasSub doneMark dc then .done
    else
      let p := dataBody id dc
      .emit p.1 p.2
  else if startsWithL evMark line || startsWithL idMark line then .emit [] id
  else .emit [normNl line] id

/-- The `for (const line of lines)` loop: `LineRes.done` is the `break`,
which abandons the remaining lines of this batch only. -/
def processLines (id : Option JsValue) : List Str → Option JsValue × List Str
  | [] => (id, [])
  | l :: ls =>
    match processLine id l with
    | .done => (id, [])
    | .emit ems id2 =>
      let p := processLines id2 ls
      (p.1, ems ++ p.2)

structure DecSt : Type where
  buffer : Str
  amid : Option JsValue

/-- One iteration of the `while (true)` read loop on a newly arrived
chunk: append to the buffer, split off complete lines, keep the trailing
partial line as the new buffer, process the complete lines. -/
def stepChunk (st : DecSt) (chunk : Str) : DecSt × List Str :=
  let p := splitNl (st.buffer ++ chunk)
  let q := processLines st.amid p.1
  (⟨p.2, q.1⟩, q.2)

def runChunks (st : DecSt) : List Str → DecSt × List Str
  | [] => (st, [])
  | c :: cs =>
    let p := stepChunk st c
    let q := runChunks p.1 cs
    (q.1, p.2 ++ q.2)

/-- The final `if (buffer.trim())` block (lines 197-224): only a carry
buffer that starts with `data: ` is processed; the terminal marker is
skipped silently; any other non-blank tail is dropped. -/
def flushTail (st : DecSt) : Option JsValue × List Str :=
  if allWs st.buffer then (st.amid, [])
  else if startsWithL sseData st.buffer then
    let dc := st.buffer.drop 6
    if hasSub doneMark dc then (st.amid, [])
    else
      let p := dataBody st.amid dc
      (p.2, p.1)
  else (st.amid, [])

/-- The whole streaming path of callChatAPI on a pre-decoded sequence of
text chunks: returns the final `agentMessageId` and the sink emissions in
order. -/
def runStream (chunks : List Str) : Option JsValue × List Str :=
  let p := runChunks ⟨[], none⟩ chunks
  let q := flushTail p.1
  (q.1, p.2 ++ q.2)

/-- `agent_message_id || null` on the non-streaming path. -/
def amidRet (v : JsValue) : Option JsValue :=
  match getField v amidKey with
  | some a => if truthy a then some a else none
  | none => none

/-- The non-streaming path of callChatAPI (lines 117-127): taken when the
content-type header signals a single JSON document.  Throws escape to the
function-level catch and abort the whole call (`Except.error`): a
rejected `response.json()`, the property read on a `null` document, and
`responseText.replace` on a truthy non-string extraction. -/
def jsonPath (doc : Str) : Except Unit (List Str × Option JsValue) :=
  match jsonParse doc with
  | none => .error ()
  | some v =>
    if isNullJ v then .error ()
    else
      let rt := jsOr (getField v respKey)
        (jsOr (getField v msgKey) (jsOr (getField v cntKey) v))
      if truthy rt then
        match rt with
        | .str s => .ok ([normNl s], amidRet v)
        | _ => .error ()
      else .ok ([], amidRet v)

/-- A complete line on which the `for` loop breaks (terminal marker). -/
def isDone (l : Str) : Bool :=
  !allWs l && startsWithL sseData l && hasSub doneMark (l.drop 6)

/-- The `agent_message_id` recorded by one line, if any: mirrors the
branch of `dataBody` that assigns `agentMessageId`. -/
def metaOf (l : Str) : Option JsValue :=
  if allWs l then none
  else if startsWithL sseData l then
    let dc := l.drop 6
    if hasSub doneMark dc then none
    else
      match jsonParse dc with
      | none => none
      | some d =>
        if isNullJ d then none
        else if isEndMeta d && truthyO (getField d amidKey)
        then getField d amidKey else none
  else none

def streamLines (chunks : List Str) : List Str := (splitNl chunks.flatten).1

def streamTail (chunks : List Str) : Str := (splitNl chunks.flatten).2

/-- All `agent_message_id` recordings of a stream (complete lines plus
the final carry buffer), in order. -/
def metasOf (chunks : List Str) : List JsValue :=
  ((streamLines chunks) ++ [streamTail chunks]).filterMap metaOf

/-! ## Data-fetching wrappers (api.ts) -/

structure JsError : Type where
  name : String
  message : String
  status : Option Nat
  endpoint : Option String

/-- The `ApiError` class of api.ts: `name` is set to "ApiError" and the
optional status and endpoint are carried as fields. -/
def mkApiError (message : String) (status : Option Nat) (endpoint : Option String) : JsError :=
  ⟨"ApiError", message, status, endpoint⟩

structure HttpResponse (α : Type) : Type where
  ok : Bool
  status : Nat
  body : α

/-- Outcome of the underlying `fetch`: either a response arrived or the
request itself threw. -/
inductive FetchOutcome (α : Type) : Type where
  | resp : HttpResponse α → FetchOutcome α
  | netErr : JsError → FetchOutcome α

def FetchOutcome.failing {α : Type} : FetchOutcome α → Bool
  | .resp r => !r.ok
  | .netErr _ => true

/-- `fetchAnalytics` (api.ts lines 253-290): the try block throws a
status-bearing `Error` on a non-ok response; the catch block rethrows a
fresh plain `Error` with a fixed message. -/
def fetchAnalyticsModel {α : Type} (o : FetchOutcome α) : Except JsError α :=
  let inner : Except JsError α :=
    match o with
    | .netErr e => .error e
    | .resp r =>
      if r.ok then .ok r.body
      else .error ⟨"Error",
        "Analytics API request failed with status " ++ toString r.status,
        none, none⟩
  match inner with
  | .ok d => .ok d
  | .error _ => .error ⟨"Error", "Failed to fetch analytics data", none, none⟩

/-- `fetchHubSpotSessions` (api.ts lines 304-341), same shape. -/
def fetchHubSpotSessionsModel {α : Type} (o : FetchOutcome α) : Except JsError α :=
  let inner : Except JsError α :=
    match o with
    | .netErr e => .error e
    | .resp r =>
      if r.ok then .ok r.body
      else .error ⟨"Error",
        "HubSpot sessions API request failed with status " ++ toString r.status,
        none, none⟩
  match inner with
  | .ok d => .ok d
  | .error _ => .error ⟨"Error", "Failed to fetch HubSpot sessions data", none, none⟩

/-- The id recorded by the payload of a non-terminal `data: ` line. -/
def dcMeta (dc : Str) : Option JsValue :=
  match jsonParse dc with
  | none => none
  | some d =>
    if isNullJ d then none
    else if isEndMeta d && truthyO (getField d amidKey)
    then getField d amidKey else none

/-- The id after one line: a recorded value overwrites, otherwise the
previous value is kept. -/
def updMeta (id : Option JsValue) (l : Str) : Option JsValue :=
  match metaOf l with
  | some m => some m
  | none => id

/-- The emissions of one complete line (independent of the incoming id). -/
def lineEms (l : Str) : List Str :=
  if allWs l then []
  else if startsWithL sseData l then
    if hasSub doneMark (l.drop 6) then []
    else (dataBody none (l.drop 6)).1
  else if startsWithL evMark l || startsWithL idMark l then []
  else [normNl l]

/-- The extraction rule as the specification states it: the first
syntactically present field among `response`, `message`, `chunk`,
`content`, regardless of its value. -/
def firstPresent (v : JsValue) : Option JsValue :=
  match getField v respKey with
  | some w => some w
  | none =>
    match getField v msgKey with
    | some w => some w
    | none =>
      match getField v chkKey with
      | some w => some w
      | none => getField v cntKey

/-! ## Basic lemmas -/

theorem normNl_ne_nil (s : Str) (h : s ≠ []) : normNl s ≠ [] := by
  match s with
  | [] => exact absurd rfl h
  | [c] => simp [normNl]
  | c :: c2 :: cs =>
    simp only [normNl]
    split <;> simp

theorem allWs_nil : allWs [] = true := rfl

theorem ne_nil_of_not_allWs (s : Str) (h : allWs s = false) : s ≠ [] := by
  intro he
  rw [he, allWs_nil] at h
  cases h

theorem splitNl_append (a b : Str) :
    splitNl (a ++ b) =
      match (splitNl b).1 with
      | [] => ((splitNl a).1, (splitNl a).2 ++ (splitNl b).2)
      | h :: t => ((splitNl a).1 ++ ((splitNl a).2 ++ h) :: t, (splitNl b).2) := by
  induction a with
  | nil =>
    rcases hsb : splitNl b with ⟨lb, tb⟩
    cases lb <;> simp [hsb, splitNl]
  | cons c a ih =>
    rcases hsb : splitNl b with ⟨lb, tb⟩
    rcases hsa : splitNl a with ⟨la, ta⟩
    simp only [hsb, hsa] at ih
    by_cases hc : c = '\n'
    · subst hc
      cases lb <;> simp_all [splitNl]
    · cases lb with
      | nil =>
        simp only at ih
        cases la <;> simp_all [splitNl, if_neg hc]
      | cons h t =>
        simp only at ih
        cases la <;> simp_all [splitNl, if_neg hc, List.append_assoc]

theorem splitNl_tail_no_nl (s : Str) : '\n' ∉ (splitNl s).2 := by
  induction s with
  | nil => simp [splitNl]
  | cons c cs ih =>
    rcases hp : splitNl cs with ⟨ls, t⟩
    rw [hp] at ih
    by_cases hc : c = '\n'
    · subst hc; simpa [splitNl, hp] using ih
    · cases ls with
      | nil =>
        simp only [splitNl, hp, if_neg hc, List.mem_cons, not_or]
        exact ⟨fun he => hc he.symm, ih⟩
      | cons l ls2 => simpa [splitNl, hp, if_neg hc] using ih

theorem splitNl_of_no_nl (s : Str) (h : '\n' ∉ s) : splitNl s = ([], s) := by
  induction s with
  | nil => rfl
  | cons c cs ih =>
    have hc : c ≠ '\n' := fun he => h (he ▸ List.mem_cons_self c cs)
    have ih2 := ih (fun hm => h (List.mem_cons_of_mem c hm))
    simp [splitNl, if_neg hc, ih2]

/-- Accumulated splitting: the complete lines of `x ++ y` are the complete
lines of `x` followed by those of the carry of `x` glued onto `y`. -/
theorem splitNl_buffer (x y : Str) :
    splitNl (x ++ y) =
      ((splitNl x).1 ++ (splitNl ((splitNl x).2 ++ y)).1,
       (splitNl ((splitNl x).2 ++ y)).2) := by
  have htx := splitNl_of_no_nl (splitNl x).2 (splitNl_tail_no_nl x)
  rw [splitNl_append x y, splitNl_append ((splitNl x).2) y, htx]
  cases hb : (splitNl y).1 <;> simp

/-! ## Line-processing lemmas -/

theorem dataBody_snd (id : Option JsValue) (dc : Str) :
    (dataBody id dc).2 =
      match dcMeta dc with
      | some m => some m
      | none => id := by
  unfold dataBody dcMeta
  cases hp : jsonParse dc with
  | none => rfl
  | some d =>
    have hX : (if (isEndMeta d && truthyO (getField d amidKey)) = true
          then getField d amidKey else id) =
        (match (if (isEndMeta d && truthyO (getField d amidKey)) = true
          then getField d amidKey else none) with
          | some m => some m
          | none => id) := by
      cases hm : isEndMeta d && truthyO (getField d amidKey)
      · simp
      · cases hg : getField d amidKey
        · simp [truthyO, hg] at hm
        · simp [hg]
    cases hn : isNullJ d
    · simp only [hn, Bool.false_eq_true, if_false]
      split
      · split <;> exact hX
      · exact hX
    · simp [hn]

theorem dataBody_fst_shape (id : Option JsValue) (dc : Str) :
    ∀ e ∈ (dataBody id dc).1, ∃ raw, raw ≠ [] ∧ e = normNl raw := by
  have hfb : ∀ e ∈ fallbackEms dc, ∃ raw, raw ≠ [] ∧ e = normNl raw := by
    unfold fallbackEms
    split
    · simp
    · next hws =>
      intro e he
      rw [List.mem_singleton] at he
      subst he
      exact ⟨dc, ne_nil_of_not_allWs dc (by simpa using hws), rfl⟩
  unfold dataBody
  cases hp : jsonParse dc with
  | none => simpa using hfb
  | some d =>
    cases hn : isNullJ d
    · simp only [hn, Bool.false_eq_true, if_false]
      split
      · next ht =>
        split
        · next s heq =>
          intro e he
          rw [List.mem_singleton] at he
          subst he
          refine ⟨s, ?_, rfl⟩
          rw [heq] at ht
          simpa [truthy] using ht
        · simpa using hfb
      · simp
    · simpa [hn] using hfb

theorem dataBody_fst_const (idA idB : Option JsValue) (dc : Str) :
    (dataBody idA dc).1 = (dataBody idB dc).1 := by
  unfold dataBody
  cases hp : jsonParse dc with
  | none => rfl
  | some d =>
    cases hn : isNullJ d
    · simp only [hn, Bool.false_eq_true, if_false]
      split
      · split <;> rfl
      · rfl
    · simp [hn]

theorem metaOf_data (l : Str) (h1 : allWs l = false) (h2 : startsWithL sseData l = true)
    (h3 : hasSub doneMark (l.drop 6) = false) :
    metaOf l = dcMeta (l.drop 6) := by
  unfold metaOf dcMeta
  simp only [h1, h2, h3, Bool.false_eq_true, if_false, if_true]

theorem processLine_char (id : Option JsValue) (l : Str) :
    processLine id l =
      if isDone l = true then .done
      else .emit (lineEms l) (updMeta id l) := by
  unfold processLine lineEms isDone updMeta
  cases hb1 : allWs l
  · cases hb2 : startsWithL sseData l
    · cases hb3 : startsWithL evMark l || startsWithL idMark l
      · simp [hb1, hb2, hb3, metaOf]
      · simp [hb1, hb2, hb3, metaOf]
    · cases hb4 : hasSub doneMark (l.drop 6)
      · simp only [hb1, hb2, hb4, Bool.false_eq_true, Bool.true_eq_false, if_false, if_true,
          Bool.not_false, Bool.not_true, Bool.true_and, Bool.and_true, Bool.false_and,
          Bool.and_false]
        rw [dataBody_fst_const id none, dataBody_snd,
          metaOf_data l hb1 hb2 hb4]
      · simp [hb1, hb2, hb4]
  · simp [hb1, metaOf]

theorem processLine_eq_done (id : Option JsValue) (l : Str) :
    processLine id l = .done ↔ isDone l = true := by
  rw [processLine_char]
  split <;> simp_all

theorem processLines_append (id : Option JsValue) (ls1 ls2 : List Str)
    (h : ∀ l ∈ ls1, isDone l = false) :
    processLines id (ls1 ++ ls2) =
      ((processLines (processLines id ls1).1 ls2).1,
       (processLines id ls1).2 ++ (processLines (processLines id ls1).1 ls2).2) := by
  induction ls1 generalizing id with
  | nil => simp [processLines]
  | cons l ls ih =>
    have hl : isDone l = false := h l (List.mem_cons_self l ls)
    have hch := processLine_char id l
    rw [hl] at hch
    simp only [Bool.false_eq_true, if_false] at hch
    simp only [List.cons_append, processLines, hch, List.append_eq]
    rw [ih (updMeta id l) (fun x hx => h x (List.mem_cons_of_mem l hx))]
    simp [List.append_assoc]

theorem processLines_ems_shape (id : Option JsValue) (ls : List Str) :
    ∀ x ∈ (processLines id ls).2, ∃ raw, raw ≠ [] ∧ x = normNl raw := by
  induction ls generalizing id with
  | nil => simp [processLines]
  | cons l ls ih =>
    simp only [processLines]
    cases hp : processLine id l with
    | done => simp
    | emit e i2 =>
      intro x hx
      simp only [List.mem_append] at hx
      rcases hx with hx | hx
      · rw [processLine_char] at hp
        by_cases hd : isDone l = true
        · rw [if_pos hd] at hp; cases hp
        · rw [if_neg hd] at hp
          cases hp
          unfold lineEms at hx
          split_ifs at hx with h1 h2 h3 h4
          · cases hx
          · cases hx
          · exact dataBody_fst_shape none (l.drop 6) x hx
          · cases hx
          · rw [List.mem_singleton] at hx
            subst hx
            exact ⟨l, ne_nil_of_not_allWs l (by simpa using h1), rfl⟩
      · exact ih i2 x hx

theorem processLines_snd (id : Option JsValue) (ls : List Str)
    (h : ∀ l ∈ ls, isDone l = false) :
    (processLines id ls).1 = ls.foldl updMeta id := by
  induction ls generalizing id with
  | nil => rfl
  | cons l ls ih =>
    have hl : isDone l = false := h l (List.mem_cons_self l ls)
    have hch := processLine_char id l
    rw [hl] at hch
    simp only [Bool.false_eq_true, if_false] at hch
    simp only [processLines, hch, List.foldl_cons]
    exact ih (updMeta id l) (fun x hx => h x (List.mem_cons_of_mem l hx))

theorem runChunks_eq_single (chunks : List Str) (st : DecSt)
    (hb : '\n' ∉ st.buffer)
    (hnd : ∀ l ∈ (splitNl (st.buffer ++ chunks.flatten)).1, isDone l = false) :
    runChunks st chunks = stepChunk st chunks.flatten := by
  induction chunks generalizing st with
  | nil =>
    have hsp := splitNl_of_no_nl st.buffer hb
    simp [runChunks, stepChunk, hsp, processLines]
  | cons c cs ih =>
    have hassoc : st.buffer ++ (c :: cs).flatten = (st.buffer ++ c) ++ cs.flatten := by
      simp [List.flatten_cons, List.append_assoc]
    have hsplit := splitNl_buffer (st.buffer ++ c) cs.flatten
    have hnd' : ∀ l ∈ (splitNl ((st.buffer ++ c) ++ cs.flatten)).1, isDone l = false := by
      intro l hl
      apply hnd
      rw [hassoc]
      exact hl
    have hnd1 : ∀ l ∈ (splitNl (st.buffer ++ c)).1, isDone l = false := by
      intro l hl
      apply hnd'
      rw [hsplit]
      exact List.mem_append_left _ hl
    have hnd2 : ∀ l ∈ (splitNl ((splitNl (st.buffer ++ c)).2 ++ cs.flatten)).1,
        isDone l = false := by
      intro l hl
      apply hnd'
      rw [hsplit]
      exact List.mem_append_right _ hl
    have hb1 : '\n' ∉ (splitNl (st.buffer ++ c)).2 := splitNl_tail_no_nl _
    have ihh := ih ⟨(splitNl (st.buffer ++ c)).2,
      (processLines st.amid (splitNl (st.buffer ++ c)).1).1⟩ hb1 hnd2
    simp only [runChunks, stepChunk] at ihh ⊢
    rw [List.flatten_cons, ← List.append_assoc, hsplit]
    simp only []
    rw [processLines_append st.amid _ _ hnd1]
    simp only [ihh]

theorem runStream_eq_single (chunks : List Str)
    (hnd : ∀ l ∈ streamLines chunks, isDone l = false) :
    runStream chunks = runStream [chunks.flatten] := by
  unfold runStream
  have h1 := runChunks_eq_single chunks ⟨[], none⟩ (by simp)
    (by simpa [streamLines] using hnd)
  have h2 := runChunks_eq_single [chunks.flatten] ⟨[], none⟩ (by simp)
    (by simpa [streamLines] using hnd)
  rw [h1, h2]
  simp

theorem flushTail_snd (st : DecSt) : (flushTail st).1 = updMeta st.amid st.buffer := by
  unfold flushTail
  cases hb1 : allWs st.buffer
  · cases hb2 : startsWithL sseData st.buffer
    · simp [hb1, hb2, updMeta, metaOf]
    · cases hb3 : hasSub doneMark (st.buffer.drop 6)
      · simp only [hb1, hb2, hb3, Bool.false_eq_true, if_false, if_true]
        rw [dataBody_snd]
        simp only [updMeta, metaOf_data st.buffer hb1 hb2 hb3]
      · simp [hb1, hb2, hb3, updMeta, metaOf]
  · simp [hb1, updMeta, metaOf]

theorem flushTail_ems_shape (st : DecSt) :
    ∀ x ∈ (flushTail st).2, ∃ raw, raw ≠ [] ∧ x = normNl raw := by
  unfold flushTail
  cases hb1 : allWs st.buffer
  · cases hb2 : startsWithL sseData st.buffer
    · simp [hb1, hb2]
    · cases hb3 : hasSub doneMark (st.buffer.drop 6)
      · simp only [hb1, hb2, hb3, Bool.false_eq_true, if_false, if_true]
        exact dataBody_fst_shape st.amid (st.buffer.drop 6)
      · simp [hb1, hb2, hb3]
  · simp [hb1]

theorem foldl_updMeta (xs : List Str) (i : Option JsValue) :
    xs.foldl updMeta i =
      match (xs.filterMap metaOf).getLast? with
      | some m => some m
      | none => i := by
  induction xs using List.reverseRecOn with
  | nil => rfl
  | append_singleton ys y ih =>
    rw [List.foldl_append, List.filterMap_append, ih]
    cases hm : metaOf y
    · simp [updMeta, hm]
    · simp [updMeta, hm, List.getLast?_concat]

theorem runStream_fst (chunks : List Str)
    (hnd : ∀ l ∈ streamLines chunks, isDone l = false) :
    (runStream chunks).1 =
      (streamLines chunks ++ [streamTail chunks]).foldl updMeta none := by
  unfold runStream
  have h1 := runChunks_eq_single chunks ⟨[], none⟩ (by simp)
    (by simpa [streamLines] using hnd)
  rw [h1]
  simp only [stepChunk]
  rw [flushTail_snd]
  simp only [List.nil_append]
  rw [processLines_snd none _ (by simpa [streamLines] using hnd)]
  rw [List.foldl_append]
  simp [streamLines, streamTail]

theorem runChunks_ems_shape (chunks : List Str) (st : DecSt) :
    ∀ x ∈ (runChunks st chunks).2, ∃ raw, raw ≠ [] ∧ x = normNl raw := by
  induction chunks generalizing st with
  | nil => simp [runChunks]
  | cons c cs ih =>
    simp only [runChunks, stepChunk]
    intro x hx
    simp only [List.mem_append] at hx
    rcases hx with hx | hx
    · exact processLines_ems_shape st.amid _ x hx
    · exact ih _ x hx

theorem runStream_ems_shape (chunks : List Str) :
    ∀ x ∈ (runStream chunks).2, ∃ raw, raw ≠ [] ∧ x = normNl raw := by
  unfold runStream
  intro x hx
  simp only [List.mem_append] at hx
  rcases hx with hx | hx
  · exact runChunks_ems_shape chunks _ x hx
  · exact flushTail_ems_shape _ x hx

theorem normNl_cons_ne (c : Char) (xs : Str) (h : ¬ c = '\\') :
    normNl (c :: xs) = c :: normNl xs := by
  cases xs with
  | nil => rfl
  | cons x xs2 =>
    simp only [normNl]
    rw [if_neg]
    intro hc
    exact h hc.1

theorem normNl_cons_shape (c2 : Char) (cs : Str) (h : ¬ c2 = 'n') :
    ∃ h1 t, normNl (c2 :: cs) = h1 :: t ∧ ¬ h1 = 'n' := by
  cases cs with
  | nil => exact ⟨c2, [], rfl, h⟩
  | cons c3 cs2 =>
    simp only [normNl]
    by_cases hc : c2 = '\\' ∧ c3 = 'n'
    · rw [if_pos hc]
      exact ⟨'\n', _, rfl, by decide⟩
    · rw [if_neg hc]
      exact ⟨c2, _, rfl, h⟩

/-- Normalization is idempotent: replacing escaped newlines never creates
a new escaped-newline pair, so normalized text is a fixed point. -/
theorem normNl_idem : ∀ (s : Str), normNl (normNl s) = normNl s
  | [] => rfl
  | [_] => rfl
  | c :: c2 :: cs => by
    by_cases hc : c = '\\' ∧ c2 = 'n'
    · rw [show normNl (c :: c2 :: cs) = '\n' :: normNl cs from by simp [normNl, hc]]
      rw [normNl_cons_ne '\n' (normNl cs) (by decide)]
      rw [normNl_idem cs]
    · rw [show normNl (c :: c2 :: cs) = c :: normNl (c2 :: cs) from by simp [normNl, hc]]
      by_cases hb : c = '\\'
      · have hn2 : ¬ c2 = 'n' := fun h2 => hc ⟨hb, h2⟩
        obtain ⟨h1, t, he, hn1⟩ := normNl_cons_shape c2 cs hn2
        rw [he]
        rw [show normNl (c :: h1 :: t) = c :: normNl (h1 :: t) from by
          simp only [normNl]
          rw [if_neg (fun hq => hn1 hq.2)]]
        rw [← he, normNl_idem (c2 :: cs)]
      · rw [normNl_cons_ne c _ hb, normNl_idem (c2 :: cs)]

theorem jsonPath_ems_shape (doc : Str) (ems : List Str) (r : Option JsValue)
    (h : jsonPath doc = .ok (ems, r)) :
    ∀ x ∈ ems, ∃ raw, raw ≠ [] ∧ x = normNl raw := by
  unfold jsonPath at h
  split at h
  · cases h
  · split at h
    · cases h
    · dsimp only at h
      split at h
      · split at h
        · rename_i v hp hn ht s hs
          cases h
          intro x hx
          rw [List.mem_singleton] at hx
          subst hx
          refine ⟨s, ?_, rfl⟩
          rw [hs] at hn
          simpa [truthy] using hn
        · cases h
      · cases h
        simp

theorem allWs_data (dc : Str) : allWs (sseData ++ dc) = false := by
  have h : sseData ++ dc = 'd' :: (chars "ata: " ++ dc) := rfl
  rw [h]
  unfold allWs
  rw [List.all_cons]
  have hd : jsWs 'd' = false := by decide
  rw [hd]
  simp

theorem startsWith_data (dc : Str) : startsWithL sseData (sseData ++ dc) = true := by
  simp [startsWithL, List.isPrefixOf_iff_prefix]

theorem drop6_data (dc : Str) : (sseData ++ dc).drop 6 = dc := by
  have h6 : sseData.length = 6 := rfl
  rw [← h6, List.drop_left]

/-- A non-terminal complete `data: ` line is handled entirely by
`dataBody`. -/
theorem processLine_data (id : Option JsValue) (dc : Str)
    (hdone : hasSub doneMark dc = false) :
    processLine id (sseData ++ dc) = .emit (dataBody id dc).1 (dataBody id dc).2 := by
  unfold processLine
  rw [allWs_data, startsWith_data, drop6_data]
  simp [hdone]

/-! ## Claims -/

/-- C1 (amended): when a data line whose payload contains `[DONE]` is
encountered, the remaining complete lines of the same batch (the lines
split off from the buffer in that read-loop iteration) are not processed;
however the `break` leaves only the inner `for` loop, so the decoder
keeps reading and processing subsequent chunks: a stream starting with a
chunk consisting exactly of the terminal line behaves as if that chunk
were absent. -/
theorem claim_C1_amended :
    (∀ (id : Option JsValue) (pre post : List Str) (d : Str), isDone d = true →
        processLines id (pre ++ d :: post) = processLines id (pre ++ [d]))
    ∧ (∀ cs : List Str, runStream (chars "data: [DONE]\n" :: cs) = runStream cs) := by
  constructor
  · intro id pre post d hd
    induction pre generalizing id with
    | nil =>
      have h1 : processLine id d = .done := (processLine_eq_done id d).mpr hd
      simp [processLines, h1]
    | cons l pre ih =>
      simp only [List.cons_append, processLines]
      cases hp : processLine id l with
      | done => rfl
      | emit e i2 =>
        dsimp only
        simp only [List.append_eq]
        rw [ih i2]
  · intro cs
    have h : stepChunk ⟨[], none⟩ (chars "data: [DONE]\n") = (⟨[], none⟩, []) := rfl
    unfold runStream
    simp only [runChunks, h]
    simp

theorem claim_C1_witness :
    isDone (chars "data: [DONE]") = true
    ∧ processLines none ([chars "data: x"] ++ chars "data: [DONE]" :: [chars "hello"]) =
        processLines none ([chars "data: x"] ++ [chars "data: [DONE]"])
    ∧ runStream (chars "data: [DONE]\n" :: [chars "hello\n"]) = runStream [chars "hello\n"] :=
  ⟨by decide,
   claim_C1_amended.1 none [chars "data: x"] [chars "hello"] (chars "data: [DONE]") (by decide),
   claim_C1_amended.2 [chars "hello\n"]⟩

/-- C1 counterexample: with the terminal marker arriving in its own
chunk, a later chunk is still read and its text still reaches the sink,
contradicting the claim that no byte after the marker is processed. -/
theorem claim_C1_cex :
    (runStream [chars "data: [DONE]\n", chars "hello\n"]).2 = [chars "hello"] := by
  decide

/-- C2 (amended): chunk-boundary invariance holds for every stream that
contains no terminal-marker data line among its complete lines: two
segmentations with the same concatenation produce the same emission
sequence and the same final id. -/
theorem claim_C2_amended (A B : List Str)
    (hj : A.flatten = B.flatten)
    (hnd : ∀ l ∈ streamLines A, isDone l = false) :
    runStream A = runStream B := by
  have hndB : ∀ l ∈ streamLines B, isDone l = false := by
    unfold streamLines at *
    rw [← hj]
    exact hnd
  rw [runStream_eq_single A hnd, runStream_eq_single B hndB, hj]

theorem claim_C2_witness :
    ([chars "ab", chars "c\nd"] : List Str).flatten =
      ([chars "a", chars "bc\n", chars "d"] : List Str).flatten
    ∧ runStream [chars "ab", chars "c\nd"] = runStream [chars "a", chars "bc\n", chars "d"] :=
  ⟨rfl, claim_C2_amended [chars "ab", chars "c\nd"] [chars "a", chars "bc\n", chars "d"]
    rfl (by decide)⟩

/-- C2 counterexample: two segmentations of the same byte sequence (the
terminal line alone versus the terminal line followed by a further line
in one chunk) give different emission sequences, because the `break` only
skips the rest of the current batch. -/
theorem claim_C2_cex :
    ([chars "data: [DONE]\nhello\n"] : List Str).flatten =
      ([chars "data: [DONE]\n", chars "hello\n"] : List Str).flatten
    ∧ (runStream [chars "data: [DONE]\nhello\n"]).2 ≠
        (runStream [chars "data: [DONE]\n", chars "hello\n"]).2 := by
  constructor
  · decide
  · decide

/-- C3: last-write-wins for the correlation id.  For any stream whose
complete lines contain no terminal marker, the returned id is exactly the
last `agent_message_id` recorded by an `end_metadata` event (complete
lines and final carry buffer alike), and absent when no such event
appears. -/
theorem claim_C3 (chunks : List Str)
    (hnd : ∀ l ∈ streamLines chunks, isDone l = false) :
    (runStream chunks).1 = (metasOf chunks).getLast? := by
  rw [runStream_fst chunks hnd, foldl_updMeta]
  unfold metasOf
  cases ((streamLines chunks ++ [streamTail chunks]).filterMap metaOf).getLast? <;> rfl

theorem claim_C3_witness :
    (∀ l ∈ streamLines [chars "data: \x7b\"type\":\"end_metadata\",\"agent_message_id\":\"A\"\x7d\ndata: \x7b\"type\":\"end_metadata\",\"agent_message_id\":\"B\"\x7d\n"],
        isDone l = false)
    ∧ (runStream [chars "data: \x7b\"type\":\"end_metadata\",\"agent_message_id\":\"A\"\x7d\ndata: \x7b\"type\":\"end_metadata\",\"agent_message_id\":\"B\"\x7d\n"]).1 =
        (metasOf [chars "data: \x7b\"type\":\"end_metadata\",\"agent_message_id\":\"A\"\x7d\ndata: \x7b\"type\":\"end_metadata\",\"agent_message_id\":\"B\"\x7d\n"]).getLast?
    ∧ (metasOf [chars "data: \x7b\"type\":\"end_metadata\",\"agent_message_id\":\"A\"\x7d\ndata: \x7b\"type\":\"end_metadata\",\"agent_message_id\":\"B\"\x7d\n"]).getLast? =
        some (JsValue.str (chars "B")) :=
  ⟨by decide, claim_C3 _ (by decide), rfl⟩

/-- C4 (amended): after the read loop, a non-empty carry buffer is
processed like a complete line only when it starts with `data: ` (then it
goes through exactly the same `dataBody` handling as a complete data
line, terminal marker excluded); a carry buffer that does not start with
`data: ` — plain text as well as `event:` or `id:` envelope lines — is
dropped without reaching the sink. -/
theorem claim_C4_amended :
    (∀ (id : Option JsValue) (dc : Str), hasSub doneMark dc = false →
        flushTail ⟨sseData ++ dc, id⟩ = ((dataBody id dc).2, (dataBody id dc).1)
        ∧ processLine id (sseData ++ dc) = .emit (dataBody id dc).1 (dataBody id dc).2)
    ∧ (∀ (id : Option JsValue) (b : Str), startsWithL sseData b = false →
        flushTail ⟨b, id⟩ = (id, [])) := by
  constructor
  · intro id dc hdone
    refine ⟨?_, processLine_data id dc hdone⟩
    unfold flushTail
    dsimp only
    rw [allWs_data, startsWith_data, drop6_data]
    simp [hdone]
  · intro id b hb
    unfold flushTail
    dsimp only
    rw [hb]
    cases hw : allWs b <;> simp

theorem claim_C4_witness :
    flushTail ⟨sseData ++ chars "\x7b\"content\":\"tail\"\x7d", none⟩ =
      ((dataBody none (chars "\x7b\"content\":\"tail\"\x7d")).2,
       (dataBody none (chars "\x7b\"content\":\"tail\"\x7d")).1)
    ∧ (dataBody none (chars "\x7b\"content\":\"tail\"\x7d")).1 = [chars "tail"]
    ∧ flushTail ⟨chars "hello", none⟩ = (none, []) :=
  ⟨(claim_C4_amended.1 none (chars "\x7b\"content\":\"tail\"\x7d") (by decide)).1,
   rfl,
   claim_C4_amended.2 none (chars "hello") (by decide)⟩

/-- C4 counterexample: a stream ending in the plain partial line `hello`
(no trailing newline) emits nothing, although processing it as a complete
line would emit it; the final-buffer block has no branch for non-`data: `
lines. -/
theorem claim_C4_cex :
    (runStream [chars "hello"]).2 = []
    ∧ processLine none (chars "hello") = .emit [chars "hello"] none := by
  exact ⟨by decide, rfl⟩

/-- C5: a data line whose payload is not valid JSON and whose payload
does not contain the terminal marker never raises: when the trimmed
payload is non-empty, the sink is invoked exactly once for that line with
the raw payload (escaped newlines normalized), the recorded id is
unchanged, and processing continues (the line yields an `emit`, never an
error or a stop). -/
theorem claim_C5 (id : Option JsValue) (dc : Str)
    (hparse : jsonParse dc = none)
    (hdone : hasSub doneMark dc = false)
    (hws : allWs dc = false) :
    processLine id (sseData ++ dc) = .emit [normNl dc] id := by
  rw [processLine_data id dc hdone]
  unfold dataBody fallbackEms
  rw [hparse, hws]
  simp

theorem claim_C5_witness :
    jsonParse (chars "\x7bbad json") = none
    ∧ allWs (chars "\x7bbad json") = false
    ∧ processLine none (sseData ++ chars "\x7bbad json") =
        .emit [normNl (chars "\x7bbad json")] none
    ∧ normNl (chars "\x7bbad json") = chars "\x7bbad json" :=
  ⟨rfl, rfl, claim_C5 none (chars "\x7bbad json") rfl (by decide) rfl, rfl⟩

/-- C6 (amended): for a data line whose payload parses as a JSON object,
the emission is decided by the first truthy field among `response`,
`message`, `chunk`, `content` in that order (`chunkVal`, built from JS
`||`), not by the first merely present field: a present-but-empty field
is skipped in favour of later fields.  A truthy string emits normalized;
a truthy non-string makes `chunk.replace` throw into the catch, which
emits the raw payload; no truthy field emits nothing.  The id update is
unaffected. -/
theorem claim_C6_amended (id : Option JsValue) (dc : Str) (fs : List (Str × JsValue))
    (hp : jsonParse dc = some (JsValue.obj fs))
    (hdone : hasSub doneMark dc = false) :
    processLine id (sseData ++ dc) =
      .emit
        (match chunkVal (JsValue.obj fs) with
         | JsValue.str s => if s.isEmpty then [] else [normNl s]
         | w => if truthy w then fallbackEms dc else [])
        (if isEndMeta (JsValue.obj fs) && truthyO (getField (JsValue.obj fs) amidKey)
         then getField (JsValue.obj fs) amidKey else id) := by
  rw [processLine_data id dc hdone]
  unfold dataBody
  rw [hp]
  dsimp only [isNullJ]
  simp only [Bool.false_eq_true, if_false]
  rcases hck : chunkVal (JsValue.obj fs) with _ | b | q | s | xs | gs <;>
    simp [hck, truthy]
  · cases b <;> simp [truthy]
  · by_cases hq : q = 0 <;> simp [hq, truthy]
  · by_cases hs : s.isEmpty <;> simp_all [truthy, List.isEmpty_iff]

theorem claim_C6_witness :
    processLine none (sseData ++ chars "\x7b\"response\":\"\",\"message\":\"hi\"\x7d") =
      .emit
        (match chunkVal (JsValue.obj [(chars "response", JsValue.str []),
            (chars "message", JsValue.str (chars "hi"))]) with
         | JsValue.str s => if s.isEmpty then [] else [normNl s]
         | w => if truthy w
                then fallbackEms (chars "\x7b\"response\":\"\",\"message\":\"hi\"\x7d") else [])
        (if isEndMeta (JsValue.obj [(chars "response", JsValue.str []),
              (chars "message", JsValue.str (chars "hi"))]) &&
            truthyO (getField (JsValue.obj [(chars "response", JsValue.str []),
              (chars "message", JsValue.str (chars "hi"))]) amidKey)
         then getField (JsValue.obj [(chars "response", JsValue.str []),
              (chars "message", JsValue.str (chars "hi"))]) amidKey
         else none)
    ∧ chunkVal (JsValue.obj [(chars "response", JsValue.str []),
        (chars "message", JsValue.str (chars "hi"))]) = JsValue.str (chars "hi") :=
  ⟨claim_C6_amended none (chars "\x7b\"response\":\"\",\"message\":\"hi\"\x7d")
      [(chars "response", JsValue.str []), (chars "message", JsValue.str (chars "hi"))]
      rfl (by decide),
   rfl⟩

/-- C6 counterexample: in the payload the first present field among the
priority list is `response`, whose value is the empty string, so by the
claim nothing would be emitted; the code skips the falsy field and emits
the `message` value `hi`. -/
theorem claim_C6_cex :
    jsonParse (chars "\x7b\"response\":\"\",\"message\":\"hi\"\x7d") =
      some (JsValue.obj [(chars "response", JsValue.str []),
        (chars "message", JsValue.str (chars "hi"))])
    ∧ firstPresent (JsValue.obj [(chars "response", JsValue.str []),
        (chars "message", JsValue.str (chars "hi"))]) = some (JsValue.str [])
    ∧ processLine none (chars "data: \x7b\"response\":\"\",\"message\":\"hi\"\x7d") =
        .emit [chars "hi"] none :=
  ⟨rfl, rfl, rfl⟩

/-- C7: escaped-newline normalization is applied to every chunk the sink
receives, on the streaming path (JSON field, malformed-payload fallback
and plain-line alike) and on the non-streaming path; normalized text is a
fixed point of the normalization.  The single line
`data: {"response":"x\ny"}` yields exactly one sink call whose text is
`x`, newline, `y`. -/
theorem claim_C7 :
    (∀ (chunks : List Str), ∀ x ∈ (runStream chunks).2, normNl x = x)
    ∧ (∀ (doc : Str) (ems : List Str) (r : Option JsValue),
        jsonPath doc = .ok (ems, r) → ∀ x ∈ ems, normNl x = x)
    ∧ (runStream [chars "data: \x7b\"response\":\"x\\ny\"\x7d\n"]).2 = [chars "x\ny"] := by
  refine ⟨?_, ?_, rfl⟩
  · intro chunks x hx
    obtain ⟨raw, _, hr⟩ := runStream_ems_shape chunks x hx
    rw [hr, normNl_idem]
  · intro doc ems r h x hx
    obtain ⟨raw, _, hr⟩ := jsonPath_ems_shape doc ems r h x hx
    rw [hr, normNl_idem]

theorem claim_C7_witness :
    normNl (chars "x\ny") = chars "x\ny" :=
  claim_C7.1 [chars "data: \x7b\"response\":\"x\\ny\"\x7d\n"] (chars "x\ny") (by decide)

/-- C8 (amended): on the JSON content-type path the document is parsed
once and no line parsing happens; when the extracted value — the first
truthy among `response`, `message`, `content`, falling back to the whole
document — is a non-empty string, the sink is invoked exactly once with
it normalized and the document-level `agent_message_id` (truthy, else
absent) is returned.  A document whose extraction is a truthy non-string
(for instance an object with none of the three fields) makes the whole
call throw instead. -/
theorem claim_C8_amended (doc : Str) (v : JsValue) (s : Str)
    (hp : jsonParse doc = some v)
    (hs : jsOr (getField v respKey)
        (jsOr (getField v msgKey) (jsOr (getField v cntKey) v)) = JsValue.str s)
    (hne : s.isEmpty = false) :
    jsonPath doc = .ok ([normNl s], amidRet v) := by
  have hnn : isNullJ v = false := by
    cases v <;> simp_all [isNullJ, getField, jsOr]
  unfold jsonPath
  rw [hp]
  simp only [hnn, Bool.false_eq_true, if_false]
  rw [hs]
  simp [truthy, hne]

theorem claim_C8_witness :
    jsonParse (chars "\x7b\"response\":\"hi\",\"agent_message_id\":\"abc\"\x7d") =
      some (JsValue.obj [(chars "response", JsValue.str (chars "hi")),
        (chars "agent_message_id", JsValue.str (chars "abc"))])
    ∧ jsonPath (chars "\x7b\"response\":\"hi\",\"agent_message_id\":\"abc\"\x7d") =
        .ok ([normNl (chars "hi")],
          amidRet (JsValue.obj [(chars "response", JsValue.str (chars "hi")),
            (chars "agent_message_id", JsValue.str (chars "abc"))]))
    ∧ amidRet (JsValue.obj [(chars "response", JsValue.str (chars "hi")),
        (chars "agent_message_id", JsValue.str (chars "abc"))]) =
        some (JsValue.str (chars "abc")) :=
  ⟨rfl,
   claim_C8_amended (chars "\x7b\"response\":\"hi\",\"agent_message_id\":\"abc\"\x7d")
     (JsValue.obj [(chars "response", JsValue.str (chars "hi")),
       (chars "agent_message_id", JsValue.str (chars "abc"))])
     (chars "hi") rfl rfl rfl,
   rfl⟩

/-- C8 counterexample: a JSON document carrying only `agent_message_id`
has no `response`, `message` or `content`, so the extraction falls back
to the document object itself, which is truthy but not a string;
`responseText.replace` throws and the whole call aborts — the sink is
never invoked and the id is not returned, contrary to the claim. -/
theorem claim_C8_cex :
    jsonPath (chars "\x7b\"agent_message_id\":\"abc\"\x7d") = .error () := rfl

/-- C9 (amended): on every failing request (network error or non-success
status) the two data-fetching wrappers throw a fresh generic `Error`
whose message is a fixed per-wrapper string ("Failed to fetch analytics
data" respectively "Failed to fetch HubSpot sessions data"), carrying no
status and no endpoint field and independent of the underlying failure;
the `ApiError` class carrying an endpoint name exists but is not what
these wrappers throw. -/
theorem claim_C9_amended :
    (∀ (α : Type) (o : FetchOutcome α), o.failing = true →
        fetchAnalyticsModel o =
          .error ⟨"Error", "Failed to fetch analytics data", none, none⟩)
    ∧ (∀ (α : Type) (o : FetchOutcome α), o.failing = true →
        fetchHubSpotSessionsModel o =
          .error ⟨"Error", "Failed to fetch HubSpot sessions data", none, none⟩) := by
  constructor
  · intro α o ho
    rcases o with r | e
    · rcases r with ⟨ok, st, bd⟩
      simp only [FetchOutcome.failing, Bool.not_eq_true'] at ho
      simp [fetchAnalyticsModel, ho]
    · simp [fetchAnalyticsModel]
  · intro α o ho
    rcases o with r | e
    · rcases r with ⟨ok, st, bd⟩
      simp only [FetchOutcome.failing, Bool.not_eq_true'] at ho
      simp [fetchHubSpotSessionsModel, ho]
    · simp [fetchHubSpotSessionsModel]

theorem claim_C9_witness :
    (FetchOutcome.resp (α := Unit) ⟨false, 500, ()⟩).failing = true
    ∧ fetchAnalyticsModel (FetchOutcome.resp (α := Unit) ⟨false, 500, ()⟩) =
        .error ⟨"Error", "Failed to fetch analytics data", none, none⟩
    ∧ fetchHubSpotSessionsModel
        (FetchOutcome.netErr (α := Unit) ⟨"TypeError", "fetch failed", none, none⟩) =
        .error ⟨"Error", "Failed to fetch HubSpot sessions data", none, none⟩ :=
  ⟨rfl,
   claim_C9_amended.1 Unit (FetchOutcome.resp ⟨false, 500, ()⟩) rfl,
   claim_C9_amended.2 Unit (FetchOutcome.netErr ⟨"TypeError", "fetch failed", none, none⟩) rfl⟩

/-- C9 counterexample: the error actually thrown by `fetchAnalytics` on a
failing request is a plain `Error` — its `name` is "Error", not
"ApiError" — and it carries no endpoint field, while `mkApiError` (the
`ApiError` class) would set the name to "ApiError" and carry the
endpoint. -/
theorem claim_C9_cex :
    fetchAnalyticsModel (FetchOutcome.resp (α := Unit) ⟨false, 500, ()⟩) =
      .error ⟨"Error", "Failed to fetch analytics data", none, none⟩
    ∧ ("Error" : String) ≠ "ApiError"
    ∧ (mkApiError "Failed to fetch analytics data" none (some "analytics")).name = "ApiError"
    ∧ (⟨"Error", "Failed to fetch analytics data", none, none⟩ : JsError).endpoint = none :=
  ⟨rfl, by decide, rfl, rfl⟩

/-- C10: every sink invocation passes a non-empty string, on the
streaming path and on the non-streaming JSON path alike: blank lines,
falsy extracted fields and whitespace-only payloads are all filtered
before the sink is called, and normalization never empties a non-empty
string. -/
theorem claim_C10 :
    (∀ (chunks : List Str), ∀ x ∈ (runStream chunks).2, x ≠ [])
    ∧ (∀ (doc : Str) (ems : List Str) (r : Option JsValue),
        jsonPath doc = .ok (ems, r) → ∀ x ∈ ems, x ≠ []) := by
  constructor
  · intro chunks x hx
    obtain ⟨raw, hraw, hr⟩ := runStream_ems_shape chunks x hx
    rw [hr]
    exact normNl_ne_nil raw hraw
  · intro doc ems r h x hx
    obtain ⟨raw, hraw, hr⟩ := jsonPath_ems_shape doc ems r h x hx
    rw [hr]
    exact normNl_ne_nil raw hraw

theorem claim_C10_witness :
    chars "hello" ≠ ([] : Str) :=
  claim_C10.1 [chars "hello\n"] (chars "hello") (by decide)
